import Mathlib

/-!
Verification of the author-name normalization and self-citation
classification core of the Self-cite-Checker repository (`src/main.py`).

The Python functions `_normalize_author_name`, `get_normalized_authors`
and `check_self_citation` are embedded as computable Lean functions over
`List Char` (Python strings restricted to their character sequences) with
`String`-level wrappers.  Python's partial operations (list indexing) are
additionally embedded in "checked" variants that make a potential
`IndexError` an explicit `Option` layer, to settle the totality claims.
-/

namespace SelfCite

/-- Python `str.isspace` for the ASCII whitespace characters, the ones
`str.strip()` removes at both ends. -/
def pyIsSpace (c : Char) : Bool :=
  c = ' ' || c = '\t' || c = '\n' || c = '\r' || c = '\x0b' || c = '\x0c'

/-- The trailing-junk character set of `name.rstrip('*.0123456789 ')`
in `_normalize_author_name`. -/
def junkChars : List Char :=
  ['*', '.', '0', '1', '2', '3', '4', '5', '6', '7', '8', '9', ' ']

/-- ASCII punctuation, the characters of Python's `string.punctuation`
(code points 33–47, 58–64, 91–96 and 123–126). -/
def pyIsPunct (c : Char) : Bool :=
  (33 ≤ c.toNat && c.toNat ≤ 47) || (58 ≤ c.toNat && c.toNat ≤ 64) ||
  (91 ≤ c.toNat && c.toNat ≤ 96) || (123 ≤ c.toNat && c.toNat ≤ 126)

/-- Python `str.lower()`, character-wise (ASCII case mapping, which is what
`Char.toLower` implements). -/
def lowerChars (cs : List Char) : List Char :=
  cs.map Char.toLower

/-- Drop the longest run of characters satisfying `p` from the right end
(Python `str.rstrip` with the corresponding character set). -/
def rstripP (p : Char → Bool) (cs : List Char) : List Char :=
  (cs.reverse.dropWhile p).reverse

/-- Python `str.strip()`: remove whitespace from both ends. -/
def stripWs (cs : List Char) : List Char :=
  rstripP pyIsSpace (List.dropWhile pyIsSpace cs)

/-- `name.rstrip('*.0123456789 ')` from `_normalize_author_name`. -/
def rstripJunk (cs : List Char) : List Char :=
  rstripP (fun c => decide (c ∈ junkChars)) cs

/-- Python `s.replace('.', '')`: remove every period. -/
def removeDots (cs : List Char) : List Char :=
  cs.filter (fun c => c ≠ '.')

/-- Python `s.split(sep, 1)`: split at the first occurrence of `sep` only.
`none` when `sep` does not occur (Python then returns the one-element list
`[s]`), `some (before, after)` when it does. -/
def splitFirst (sep : Char) : List Char → Option (List Char × List Char)
  | [] => none
  | c :: rest =>
    if c = sep then some ([], rest)
    else (splitFirst sep rest).map (fun p => (c :: p.1, p.2))

/-- Accumulator worker for `pySplitWs`; `acc` holds the reversed current
word. -/
def wordsAux : List Char → List Char → List (List Char)
  | [], acc => if acc = [] then [] else [acc.reverse]
  | c :: rest, acc =>
    if pyIsSpace c then
      if acc = [] then wordsAux rest [] else acc.reverse :: wordsAux rest []
    else
      wordsAux rest (c :: acc)

/-- Python `str.split()` with no argument: split on runs of whitespace,
dropping empty pieces. -/
def pySplitWs (cs : List Char) : List (List Char) :=
  wordsAux cs []

/-- Python `" ".join(words)`. -/
def joinSpace : List (List Char) → List Char
  | [] => []
  | w :: ws =>
    match ws with
    | [] => w
    | _ :: _ => w ++ ' ' :: joinSpace ws

/-- The last element of a list together with the list of the elements
before it (Python `l[-1]` and `l[:-1]` in one step); `none` on `[]`. -/
def lastAndInit {α : Type} : List α → Option (α × List α)
  | [] => none
  | a :: rest =>
    match lastAndInit rest with
    | none => some (a, [])
    | some p => some (p.1, a :: p.2)

/-- Python `s.split(sep)`: split at every occurrence of `sep`, keeping
empty pieces (`"".split(',') == [""]`). -/
def splitAll (sep : Char) : List Char → List (List Char)
  | [] => [[]]
  | c :: rest =>
    let r := splitAll sep rest
    if c = sep then [] :: r
    else
      match r with
      | [] => [[c]]
      | h :: t => (c :: h) :: t

/-- Python `s.replace(", and ", ", ")`, scanning left to right without
rescanning replacement text. -/
def fixAndComma : List Char → List Char
  | ',' :: ' ' :: 'a' :: 'n' :: 'd' :: ' ' :: rest => ',' :: ' ' :: fixAndComma rest
  | c :: rest => c :: fixAndComma rest
  | [] => []

/-- Python `s.replace(" and ", ", ")`, scanning left to right without
rescanning replacement text. -/
def fixAndBare : List Char → List Char
  | ' ' :: 'a' :: 'n' :: 'd' :: ' ' :: rest => ',' :: ' ' :: fixAndBare rest
  | c :: rest => c :: fixAndBare rest
  | [] => []

/-- The ellipsis token `"..."` compared against in `_normalize_author_name`. -/
def ellipsisTok : List Char := ['.', '.', '.']

/-- The `"N/A"` sentinel compared against in `get_normalized_authors`. -/
def naTok : List Char := ['N', '/', 'A']

/-- Lines 57–58 of `_normalize_author_name`:
`name = name_part.lower().strip()` then
`name = name.rstrip('*.0123456789 ')`. -/
def trimmedName (cs : List Char) : List Char :=
  rstripJunk (stripWs (lowerChars cs))

/-- Line 109 of `_normalize_author_name`:
`f"{last},{first}" if first else f"{last},"`. -/
def mkToken (last fm : List Char) : List Char :=
  if fm ≠ [] then last ++ ',' :: fm else last ++ [',']

/-- The shared tokens pattern of lines 79–87 and 90–103 of
`_normalize_author_name`: `return None` on no tokens, the single token as
last name with empty first/middle, or `tokens[-1]` as last name with the
first/middle built from `tokens[:-1]` by the caller-supplied `g`. -/
def tokensBranch (g : List (List Char) → List Char)
    (toks : List (List Char)) : Option (List Char × List Char) :=
  match lastAndInit toks with
  | none => none
  | some (lastTok, initToks) =>
    if initToks = [] then some (lastTok, [])
    else some (lastTok, g initToks)

/-- Lines 63–103 of `_normalize_author_name`: compute the pair
`(final_last_name, final_first_middle)` from the trimmed name, or `none`
for the two early `return None` statements (lines 81 and 92). -/
def splitNamePair (name : List Char) : Option (List Char × List Char) :=
  match splitFirst ',' name with
  | some (co0, co1) =>
    -- len(name_components) == 2: "Last, First Middle"
    if stripWs co0 ≠ [] then
      some (stripWs co0, joinSpace (pySplitWs (stripWs (removeDots co1))))
    else
      -- original was ", First Middle": tokenize the cleaned first/middle
      tokensBranch joinSpace
        (pySplitWs (joinSpace (pySplitWs (stripWs (removeDots co1)))))
  | none =>
    -- len(name_components) == 1: "First Middle Last" or just "Last"
    tokensBranch
      (fun initToks => joinSpace (pySplitWs (joinSpace
        ((initToks.map (fun p => stripWs (removeDots p))).filter
          (fun p => p ≠ [])))))
      (pySplitWs name)

/-- Lines 105–109 of `_normalize_author_name`: final emptiness check on
the last name, then emission of the token. -/
def finishToken : Option (List Char × List Char) → Option (List Char)
  | none => none
  | some (last, fm) => if last = [] then none else some (mkToken last fm)

/-- Embedding of `_normalize_author_name` (src/main.py lines 55–109) on
character lists: `none` models Python returning `None`. -/
def normalizeAuthorNameL (cs : List Char) : Option (List Char) :=
  let name := trimmedName cs
  if name = [] ∨ name = ellipsisTok then none
  else finishToken (splitNamePair name)

/-- String-level wrapper for `_normalize_author_name`. -/
def normalize_author_name (s : String) : Option String :=
  (normalizeAuthorNameL s.data).map String.mk

/-- The accumulation loop of `get_normalized_authors` (lines 122–128):
skip empty parts, keep truthy normalization results in order. -/
def filterNorm : List (List Char) → List (List Char)
  | [] => []
  | p :: rest =>
    if p = [] then filterNorm rest
    else
      match normalizeAuthorNameL p with
      | some n => if n = [] then filterNorm rest else n :: filterNorm rest
      | none => filterNorm rest

/-- Embedding of `get_normalized_authors` (src/main.py lines 111–130) on
character lists. -/
def getNormalizedAuthorsL (cs : List Char) : List (List Char) :=
  if cs = [] ∨ cs = naTok then []
  else
    let cleaned := fixAndBare (fixAndComma cs)
    filterNorm ((splitAll ',' cleaned).map stripWs)

/-- String-level wrapper for `get_normalized_authors`. -/
def get_normalized_authors (s : String) : List String :=
  (getNormalizedAuthorsL s.data).map String.mk

/-- The stripped comma-separated segments of a full author string after
the "and"-normalization pass (the `author_parts` list of line 120). -/
def authorSegments (cs : List Char) : List (List Char) :=
  (splitAll ',' (fixAndBare (fixAndComma cs))).map stripWs

/-- Restatement of the specification wording for `get_normalized_authors`
(spec section 4.1): an order-preserving filterMap of the normalizer over
the comma-separated segments, empty segments and absent results dropped,
with the empty-string and "N/A" guard.  To be compared with the loop
implementation `getNormalizedAuthorsL`. -/
def getNormalizedAuthorsSpecL (cs : List Char) : List (List Char) :=
  if cs = [] ∨ cs = naTok then []
  else (authorSegments cs).filterMap
    (fun p => if p = [] then none else normalizeAuthorNameL p)

/-- String-level wrapper for the specification-side restatement. -/
def get_normalized_authors_spec (s : String) : List String :=
  (getNormalizedAuthorsSpecL s.data).map String.mk

/-- The classification policy selected by the
`--last_author_is_self_source` flag (spec: `ClassificationPolicy`). -/
inductive ClassificationPolicy : Type
  | AnyAuthorOverlap : ClassificationPolicy
  | LastAuthorOnly : ClassificationPolicy
deriving DecidableEq

/-- Embedding of `check_self_citation` (src/main.py lines 521–534):
empty-list guard, then either last-author membership or any-overlap set
intersection. -/
def check_self_citation (orig citing : List String)
    (policy : ClassificationPolicy) : Bool :=
  if orig = [] ∨ citing = [] then false
  else
    match policy with
    | .LastAuthorOnly =>
      -- orig_authors_list[-1] in set(citing_authors_list)
      match orig.getLast? with
      | some last => decide (last ∈ citing)
      | none => false
    | .AnyAuthorOverlap =>
      -- bool(set(orig).intersection(set(citing)))
      orig.any (fun a => decide (a ∈ citing))

/-! ### Checked variants: Python list indexing made explicit

The only operations in the three functions that can raise in Python are
the list indexings `name_tokens[0]`, `name_tokens[-1]` (lines 83, 86, 94
and 98) and `orig_authors_list[-1]` (line 530).  The variants below
replace each indexing with its `Option`-valued counterpart (`get? 0`,
`getLast?`) and propagate a failure as an outer `none` (an uncaught
exception); the inner `Option` is the function's own `None`/result. -/

/-- Checked tokens pattern: `tokens[0]` becomes `get? 0` and
`tokens[-1]` becomes `getLast?`, an out-of-range access propagating as
outer `none`. -/
def tokensBranchChecked (g : List (List Char) → List Char)
    (toks : List (List Char)) : Option (Option (List Char × List Char)) :=
  if toks = [] then some none
  else if toks.length = 1 then
    (toks.get? 0).map (fun t => some (t, ([] : List Char)))
  else
    (toks.getLast?).map (fun lt => some (lt, g toks.dropLast))

/-- Checked lines 63–103. -/
def splitNamePairChecked (name : List Char) : Option (Option (List Char × List Char)) :=
  match splitFirst ',' name with
  | some (co0, co1) =>
    if stripWs co0 ≠ [] then
      some (some (stripWs co0, joinSpace (pySplitWs (stripWs (removeDots co1)))))
    else
      tokensBranchChecked joinSpace
        (pySplitWs (joinSpace (pySplitWs (stripWs (removeDots co1)))))
  | none =>
    tokensBranchChecked
      (fun initToks => joinSpace (pySplitWs (joinSpace
        ((initToks.map (fun p => stripWs (removeDots p))).filter
          (fun p => p ≠ [])))))
      (pySplitWs name)

/-- Checked lines 105–109. -/
def finishTokenChecked : Option (Option (List Char × List Char)) → Option (Option (List Char))
  | none => none
  | some none => some none
  | some (some (last, fm)) =>
    if last = [] then some none else some (some (mkToken last fm))

/-- Checked `_normalize_author_name`: outer `none` models an uncaught
`IndexError`, `some none` models returning `None`. -/
def normalizeAuthorNameChecked (cs : List Char) : Option (Option (List Char)) :=
  let name := trimmedName cs
  if name = [] ∨ name = ellipsisTok then some none
  else finishTokenChecked (splitNamePairChecked name)

/-- Checked accumulation loop of `get_normalized_authors`: propagates a
raised exception from the normalizer. -/
def filterNormChecked : List (List Char) → Option (List (List Char))
  | [] => some []
  | p :: rest =>
    if p = [] then filterNormChecked rest
    else
      match normalizeAuthorNameChecked p with
      | none => none
      | some none => filterNormChecked rest
      | some (some n) =>
        if n = [] then filterNormChecked rest
        else (filterNormChecked rest).map (fun l => n :: l)

/-- Checked `get_normalized_authors`. -/
def getNormalizedAuthorsChecked (cs : List Char) : Option (List (List Char)) :=
  if cs = [] ∨ cs = naTok then some []
  else
    let cleaned := fixAndBare (fixAndComma cs)
    filterNormChecked ((splitAll ',' cleaned).map stripWs)

/-- Checked `check_self_citation`: `orig_authors_list[-1]` becomes
`getLast?`, a failure propagating as outer `none`. -/
def check_self_citation_checked (orig citing : List String)
    (policy : ClassificationPolicy) : Option Bool :=
  if orig = [] ∨ citing = [] then some false
  else
    match policy with
    | .LastAuthorOnly =>
      (orig.getLast?).map (fun last => decide (last ∈ citing))
    | .AnyAuthorOverlap =>
      some (orig.any (fun a => decide (a ∈ citing)))

/-! ### Basic lemmas about the character-list operations -/

/-- No uppercase ASCII letter (code points 65–90); the sense in which a
normalized token is "lowercase". -/
def isUpperA (c : Char) : Bool := decide (65 ≤ c.toNat) && decide (c.toNat ≤ 90)

theorem toLower_isUpperA (c : Char) : isUpperA (Char.toLower c) = false := by
  rw [Char.toLower]
  by_cases h : c.toNat ≥ 65 ∧ c.toNat ≤ 90
  · rw [if_pos h]
    obtain ⟨h1, h2⟩ := h
    rw [ge_iff_le] at h1
    generalize hg : c.toNat = n at h1 h2
    interval_cases n <;> decide
  · rw [if_neg h]
    rw [isUpperA]
    simp only [not_and_or, not_le] at h
    rcases h with h | h <;> simp <;> omega

theorem mem_of_mem_dropWhile {p : Char → Bool} {c : Char} :
    ∀ {l : List Char}, c ∈ List.dropWhile p l → c ∈ l := by
  intro l
  induction l with
  | nil => simp [List.dropWhile]
  | cons a l ih =>
    intro h
    cases hp : p a with
    | true =>
      simp only [List.dropWhile, hp] at h
      exact List.mem_cons_of_mem a (ih h)
    | false =>
      simp only [List.dropWhile, hp] at h
      exact h

theorem mem_of_mem_rstripP {p : Char → Bool} {c : Char} {l : List Char}
    (h : c ∈ rstripP p l) : c ∈ l := by
  rw [rstripP, List.mem_reverse] at h
  have := mem_of_mem_dropWhile h
  rwa [List.mem_reverse] at this

theorem mem_of_mem_stripWs {c : Char} {l : List Char} (h : c ∈ stripWs l) : c ∈ l :=
  mem_of_mem_dropWhile (mem_of_mem_rstripP h)

theorem mem_of_mem_rstripJunk {c : Char} {l : List Char} (h : c ∈ rstripJunk l) :
    c ∈ l :=
  mem_of_mem_rstripP h

theorem mem_of_mem_removeDots {c : Char} {l : List Char} (h : c ∈ removeDots l) :
    c ∈ l ∧ c ≠ '.' := by
  rw [removeDots, List.mem_filter] at h
  exact ⟨h.1, by simpa using h.2⟩

theorem rstripP_eq_nil {p : Char → Bool} {l : List Char}
    (h : ∀ c ∈ l, p c = true) : rstripP p l = [] := by
  rw [rstripP]
  have : List.dropWhile p l.reverse = [] := by
    rw [List.dropWhile_eq_nil_iff]
    intro x hx
    exact h x (List.mem_reverse.mp hx)
  rw [this, List.reverse_nil]

theorem splitFirst_eq_append {sep : Char} :
    ∀ {l a b : List Char}, splitFirst sep l = some (a, b) → l = a ++ sep :: b := by
  intro l
  induction l with
  | nil => intro a b h; simp [splitFirst] at h
  | cons c rest ih =>
    intro a b h
    rw [splitFirst] at h
    by_cases hc : c = sep
    · rw [if_pos hc] at h
      simp only [Option.some.injEq, Prod.mk.injEq] at h
      rw [← h.1, ← h.2, hc]
      simp
    · rw [if_neg hc] at h
      cases hsf : splitFirst sep rest with
      | none => rw [hsf] at h; simp at h
      | some p =>
        obtain ⟨a1, b1⟩ := p
        rw [hsf] at h
        simp only [Option.map_some', Option.some.injEq, Prod.mk.injEq] at h
        obtain ⟨h1, h2⟩ := h
        have := ih hsf
        rw [← h1, ← h2]
        simp [this]

theorem lastAndInit_eq_none {α : Type} :
    ∀ {l : List α}, lastAndInit l = none ↔ l = [] := by
  intro l
  induction l with
  | nil => simp [lastAndInit]
  | cons a rest ih =>
    rw [lastAndInit]
    cases h : lastAndInit rest with
    | none => simp
    | some p => simp

theorem lastAndInit_eq_some {α : Type} :
    ∀ {l : List α} {x : α} {xs : List α},
      lastAndInit l = some (x, xs) → l = xs ++ [x] := by
  intro l
  induction l with
  | nil => intro x xs h; simp [lastAndInit] at h
  | cons a rest ih =>
    intro x xs h
    rw [lastAndInit] at h
    cases hl : lastAndInit rest with
    | none =>
      rw [hl] at h
      rw [lastAndInit_eq_none] at hl
      simp only [Option.some.injEq, Prod.mk.injEq] at h
      rw [← h.1, ← h.2, hl]
      simp
    | some p =>
      obtain ⟨x1, xs1⟩ := p
      rw [hl] at h
      simp only [Option.some.injEq, Prod.mk.injEq] at h
      have := ih hl
      rw [← h.1, ← h.2]
      simp [this]

theorem lastAndInit_concat {α : Type} (xs : List α) (x : α) :
    lastAndInit (xs ++ [x]) = some (x, xs) := by
  induction xs with
  | nil => simp [lastAndInit]
  | cons a ys ih =>
    rw [List.cons_append, lastAndInit, ih]

/-- All members of a word list are nonempty and whitespace-free, the shape
`str.split()` guarantees. -/
def GoodWords (ws : List (List Char)) : Prop :=
  ∀ w ∈ ws, w ≠ [] ∧ ∀ c ∈ w, pyIsSpace c = false

/-- A character list whose internal whitespace is collapsed to single
spaces: it is the single-space join of nonempty whitespace-free words. -/
def IsCollapsed (cs : List Char) : Prop :=
  ∃ ws : List (List Char), GoodWords ws ∧ cs = joinSpace ws

theorem wordsAux_chars {c : Char} :
    ∀ {cs acc : List Char} {w : List Char}, w ∈ wordsAux cs acc → c ∈ w →
      c ∈ cs ∨ c ∈ acc := by
  intro cs
  induction cs with
  | nil =>
    intro acc w hw hc
    rw [wordsAux] at hw
    by_cases ha : acc = []
    · rw [if_pos ha] at hw; simp at hw
    · rw [if_neg ha] at hw
      simp only [List.mem_singleton] at hw
      right
      rw [hw, List.mem_reverse] at hc
      exact hc
  | cons a rest ih =>
    intro acc w hw hc
    rw [wordsAux] at hw
    by_cases hsp : pyIsSpace a
    · rw [if_pos hsp] at hw
      by_cases ha : acc = []
      · rw [if_pos ha] at hw
        rcases ih hw hc with h | h
        · exact Or.inl (List.mem_cons_of_mem a h)
        · simp at h
      · rw [if_neg ha] at hw
        rcases List.mem_cons.mp hw with h | h
        · right
          rw [h, List.mem_reverse] at hc
          exact hc
        · rcases ih h hc with h2 | h2
          · exact Or.inl (List.mem_cons_of_mem a h2)
          · simp at h2
    · rw [if_neg hsp] at hw
      rcases ih hw hc with h | h
      · exact Or.inl (List.mem_cons_of_mem a h)
      · rcases List.mem_cons.mp h with h2 | h2
        · exact Or.inl (by rw [h2]; exact List.mem_cons_self a rest)
        · exact Or.inr h2

theorem wordsAux_good :
    ∀ {cs acc : List Char}, (∀ c ∈ acc, pyIsSpace c = false) →
      GoodWords (wordsAux cs acc) := by
  intro cs
  induction cs with
  | nil =>
    intro acc hacc w hw
    rw [wordsAux] at hw
    by_cases ha : acc = []
    · rw [if_pos ha] at hw; simp at hw
    · rw [if_neg ha] at hw
      simp only [List.mem_singleton] at hw
      subst hw
      refine ⟨by simpa using ha, ?_⟩
      intro c hc
      exact hacc c (List.mem_reverse.mp hc)
  | cons a rest ih =>
    intro acc hacc w hw
    rw [wordsAux] at hw
    by_cases hsp : pyIsSpace a
    · rw [if_pos hsp] at hw
      by_cases ha : acc = []
      · rw [if_pos ha] at hw
        exact ih (by simp) w hw
      · rw [if_neg ha] at hw
        rcases List.mem_cons.mp hw with h | h
        · subst h
          refine ⟨by simpa using ha, ?_⟩
          intro c hc
          exact hacc c (List.mem_reverse.mp hc)
        · exact ih (by simp) w h
    · rw [if_neg hsp] at hw
      refine ih ?_ w hw
      intro c hc
      rcases List.mem_cons.mp hc with h | h
      · rw [h]; simpa using hsp
      · exact hacc c h

theorem pySplitWs_chars {c : Char} {cs : List Char} {w : List Char}
    (hw : w ∈ pySplitWs cs) (hc : c ∈ w) : c ∈ cs := by
  rcases wordsAux_chars hw hc with h | h
  · exact h
  · simp at h

theorem pySplitWs_good (cs : List Char) : GoodWords (pySplitWs cs) :=
  wordsAux_good (by simp)

theorem joinSpace_chars {c : Char} :
    ∀ {ws : List (List Char)}, c ∈ joinSpace ws →
      c = ' ' ∨ ∃ w ∈ ws, c ∈ w := by
  intro ws
  induction ws with
  | nil => intro h; simp [joinSpace] at h
  | cons w ws ih =>
    intro h
    cases ws with
    | nil =>
      rw [joinSpace] at h
      exact Or.inr ⟨w, List.mem_singleton_self w, h⟩
    | cons v vs =>
      have hj : joinSpace (w :: v :: vs) = w ++ ' ' :: joinSpace (v :: vs) := rfl
      rw [hj] at h
      rcases List.mem_append.mp h with h1 | h1
      · exact Or.inr ⟨w, List.mem_cons_self w (v :: vs), h1⟩
      · rcases List.mem_cons.mp h1 with h2 | h2
        · exact Or.inl h2
        · rcases ih h2 with h3 | ⟨u, hu, hcu⟩
          · exact Or.inl h3
          · exact Or.inr ⟨u, List.mem_cons_of_mem w hu, hcu⟩

theorem mkToken_eq (last fm : List Char) : mkToken last fm = last ++ ',' :: fm := by
  rw [mkToken]
  by_cases h : fm = []
  · rw [if_neg (by simpa using h), h]
  · rw [if_pos (by simpa using h)]

/-- Character provenance for the processed first/middle part
`" ".join(co1.replace('.', '').strip().split())`. -/
theorem tfm_chars {co1 : List Char} :
    ∀ c ∈ joinSpace (pySplitWs (stripWs (removeDots co1))),
      c = ' ' ∨ (c ∈ co1 ∧ c ≠ '.') := by
  intro c hc
  rcases joinSpace_chars hc with h | ⟨w, hw, hcw⟩
  · exact Or.inl h
  · right
    have := mem_of_mem_stripWs (pySplitWs_chars hw hcw)
    exact mem_of_mem_removeDots this

/-- Non-space character provenance for a word of a split of the processed
first/middle part. -/
theorem tfm_word_chars {co1 w : List Char}
    (hw : w ∈ pySplitWs (joinSpace (pySplitWs (stripWs (removeDots co1))))) :
    ∀ c ∈ w, c ∈ co1 ∧ c ≠ '.' := by
  intro c hc
  have hgood := (pySplitWs_good _ w hw).2 c hc
  have hmem := pySplitWs_chars hw hc
  rcases tfm_chars c hmem with h | h
  · rw [h] at hgood
    simp [pyIsSpace] at hgood
  · exact h

/-- Inversion for the tokens pattern: the token list splits as the
initial tokens followed by the selected last name, and the first/middle
part is empty (single token) or built by `g` from the initial tokens. -/
theorem tokensBranch_eq_some {g : List (List Char) → List Char}
    {toks : List (List Char)} {last fm : List Char}
    (h : tokensBranch g toks = some (last, fm)) :
    ∃ initToks, toks = initToks ++ [last] ∧ (fm = [] ∨ fm = g initToks) := by
  rw [tokensBranch] at h
  cases hli : lastAndInit toks with
  | none => rw [hli] at h; simp at h
  | some p =>
    obtain ⟨lastTok, initToks⟩ := p
    rw [hli] at h
    simp only [] at h
    have hsplit := lastAndInit_eq_some hli
    by_cases hi : initToks = []
    · rw [if_pos hi] at h
      simp only [Option.some.injEq, Prod.mk.injEq] at h
      refine ⟨initToks, ?_, Or.inl h.2.symm⟩
      rw [h.1] at hsplit
      exact hsplit
    · rw [if_neg hi] at h
      simp only [Option.some.injEq, Prod.mk.injEq] at h
      refine ⟨initToks, ?_, Or.inr h.2.symm⟩
      rw [h.1] at hsplit
      exact hsplit

/-- Shape of the `(final_last_name, final_first_middle)` pair computed by
lines 63–103: the last name is made of characters of the trimmed name;
the first/middle part is period-free, made of characters of the trimmed
name and single separating spaces, and whitespace-collapsed. -/
theorem splitNamePair_shape {name last fm : List Char}
    (h : splitNamePair name = some (last, fm)) :
    (∀ c ∈ last, c ∈ name) ∧
    (∀ c ∈ fm, c = ' ' ∨ (c ∈ name ∧ c ≠ '.')) ∧ IsCollapsed fm := by
  rw [splitNamePair] at h
  split at h
  case h_1 co0 co1 heq =>
    have hname : name = co0 ++ ',' :: co1 := splitFirst_eq_append heq
    have hco1 : ∀ c ∈ co1, c ∈ name := by
      intro c hc
      rw [hname]
      exact List.mem_append_right _ (List.mem_cons_of_mem _ hc)
    simp only [ne_eq] at h
    split at h
    · -- temp_last nonempty: ("Last, First Middle")
      simp only [Option.some.injEq, Prod.mk.injEq] at h
      obtain ⟨hlast, hfm⟩ := h
      refine ⟨?_, ?_, ?_⟩
      · intro c hc
        rw [← hlast] at hc
        have := mem_of_mem_stripWs hc
        rw [hname]
        exact List.mem_append_left _ this
      · intro c hc
        rw [← hfm] at hc
        rcases tfm_chars c hc with h1 | h1
        · exact Or.inl h1
        · exact Or.inr ⟨hco1 c h1.1, h1.2⟩
      · rw [← hfm]
        exact ⟨_, pySplitWs_good _, rfl⟩
    · -- temp_last empty: ", First Middle Last"
      obtain ⟨initToks, htoks, hfm⟩ := tokensBranch_eq_some h
      have hlt_mem : last ∈ pySplitWs
          (joinSpace (pySplitWs (stripWs (removeDots co1)))) := by
        rw [htoks]
        exact List.mem_append_right _ (List.mem_singleton_self _)
      have hlt : ∀ c ∈ last, c ∈ name := by
        intro c hc
        exact hco1 c (tfm_word_chars hlt_mem c hc).1
      have hinit_mem : ∀ w ∈ initToks, w ∈ pySplitWs
          (joinSpace (pySplitWs (stripWs (removeDots co1)))) := by
        intro w hw
        rw [htoks]
        exact List.mem_append_left _ hw
      rcases hfm with hfm | hfm
      · subst hfm
        exact ⟨hlt, by simp, [], by rw [GoodWords]; simp, rfl⟩
      · subst hfm
        refine ⟨hlt, ?_, ?_⟩
        · intro c hc
          rcases joinSpace_chars hc with h1 | ⟨w, hw, hcw⟩
          · exact Or.inl h1
          · have := tfm_word_chars (hinit_mem w hw) c hcw
            exact Or.inr ⟨hco1 c this.1, this.2⟩
        · refine ⟨initToks, ?_, rfl⟩
          intro w hw
          exact pySplitWs_good _ w (hinit_mem w hw)
  case h_2 heq =>
    -- no comma: "First Middle Last" or just "Last"
    obtain ⟨initToks, htoks, hfm⟩ := tokensBranch_eq_some h
    have hlt : ∀ c ∈ last, c ∈ name := by
      intro c hc
      refine pySplitWs_chars ?_ hc
      rw [htoks]
      exact List.mem_append_right _ (List.mem_singleton_self _)
    have hinit_mem : ∀ w ∈ initToks, w ∈ pySplitWs name := by
      intro w hw
      rw [htoks]
      exact List.mem_append_left _ hw
    rcases hfm with hfm | hfm
    · subst hfm
      exact ⟨hlt, by simp, [], by rw [GoodWords]; simp, rfl⟩
    · subst hfm
      have hparts : ∀ c ∈ joinSpace
          ((initToks.map (fun p => stripWs (removeDots p))).filter
            (fun p => p ≠ [])),
          c = ' ' ∨ (c ∈ name ∧ c ≠ '.') := by
        intro c hc
        rcases joinSpace_chars hc with h1 | ⟨q, hq, hcq⟩
        · exact Or.inl h1
        · right
          rw [List.mem_filter] at hq
          rcases List.mem_map.mp hq.1 with ⟨p0, hp0, hq0⟩
          rw [← hq0] at hcq
          have hrd := mem_of_mem_removeDots (mem_of_mem_stripWs hcq)
          exact ⟨pySplitWs_chars (hinit_mem p0 hp0) hrd.1, hrd.2⟩
      refine ⟨hlt, ?_, ?_⟩
      · intro c hc
        rcases joinSpace_chars hc with h1 | ⟨w, hw, hcw⟩
        · exact Or.inl h1
        · have hcj := pySplitWs_chars hw hcw
          rcases hparts c hcj with h2 | h2
          · have hgood := (pySplitWs_good _ w hw).2 c hcw
            rw [h2] at hgood
            simp [pyIsSpace] at hgood
          · exact Or.inr h2
      · exact ⟨_, pySplitWs_good _, rfl⟩

/-- Inversion of `_normalize_author_name`: a successful result is the
token built from the computed pair, whose last name passed the final
non-emptiness check. -/
theorem normalizeAuthorNameL_eq_some {cs tok : List Char}
    (h : normalizeAuthorNameL cs = some tok) :
    ∃ last fm, splitNamePair (trimmedName cs) = some (last, fm) ∧
      last ≠ [] ∧ tok = last ++ ',' :: fm := by
  rw [normalizeAuthorNameL] at h
  split at h
  · simp at h
  · cases hsp : splitNamePair (trimmedName cs) with
    | none => rw [hsp, finishToken] at h; simp at h
    | some p =>
      obtain ⟨last, fm⟩ := p
      rw [hsp] at h
      rw [finishToken] at h
      split at h
      · simp at h
      · rename_i hlast
        simp only [Option.some.injEq] at h
        exact ⟨last, fm, rfl, hlast, by rw [← h, mkToken_eq]⟩

/-- A successful normalization result is never the empty token (it always
contains the comma separator). -/
theorem normalizeAuthorNameL_ne_nil {cs tok : List Char}
    (h : normalizeAuthorNameL cs = some tok) : tok ≠ [] := by
  obtain ⟨last, fm, _, _, htok⟩ := normalizeAuthorNameL_eq_some h
  rw [htok]
  simp

/-- Every character of the trimmed name is the lowercasing of an input
character. -/
theorem trimmedName_chars {c : Char} {cs : List Char} (h : c ∈ trimmedName cs) :
    ∃ d ∈ cs, c = Char.toLower d := by
  rw [trimmedName] at h
  have h2 := mem_of_mem_stripWs (mem_of_mem_rstripJunk h)
  rcases List.mem_map.mp h2 with ⟨d, hd, hdc⟩
  exact ⟨d, hd, hdc.symm⟩

theorem junk_toLower : ∀ c ∈ junkChars, Char.toLower c = c := by decide

/-! ### Claim theorems -/

/-- C1 (counterexample): on the full author string
"Smith, J., and Doe, A." the pipeline does not return
["smith,j", "doe,a"]; the comma inside each "Last, Initial" pair is
treated as a list separator. -/
theorem get_normalized_authors_smith_doe_counterexample :
    get_normalized_authors "Smith, J., and Doe, A." ≠ ["smith,j", "doe,a"] := by
  decide

/-- C1 (amended): segmentation splits on every comma after the
"and"-normalization pass, so "Smith, J., and Doe, A." yields four
independent segments, each normalized as a bare surname, giving the
ordered list ["smith,", "j,", "doe,", "a,"]. -/
theorem get_normalized_authors_smith_doe :
    get_normalized_authors "Smith, J., and Doe, A."
      = ["smith,", "j,", "doe,", "a,"] := by
  decide

/-- C2: under the any-overlap policy, for non-empty normalized author
lists, classification succeeds exactly when the two lists share a token
(non-empty set intersection under exact string equality). -/
theorem any_overlap_iff_common_author (orig citing : List String)
    (h1 : orig ≠ []) (h2 : citing ≠ []) :
    check_self_citation orig citing .AnyAuthorOverlap = true ↔
      ∃ t ∈ orig, t ∈ citing := by
  rw [check_self_citation, if_neg (by simp [not_or, h1, h2])]
  simp [List.any_eq_true]

/-- C2 (witness): the two concrete examples, settled through the
equivalence. -/
theorem any_overlap_iff_common_author_witness :
    check_self_citation ["smith,j", "doe,a"] ["doe,a"] .AnyAuthorOverlap = true ∧
    check_self_citation ["smith,j", "doe,a"] ["lee,k"] .AnyAuthorOverlap = false := by
  constructor
  · exact (any_overlap_iff_common_author ["smith,j", "doe,a"] ["doe,a"]
      (by simp) (by simp)).mpr ⟨"doe,a", by simp, by simp⟩
  · rw [Bool.eq_false_iff]
    intro hc
    have h := (any_overlap_iff_common_author ["smith,j", "doe,a"] ["lee,k"]
      (by simp) (by simp)).mp hc
    exact absurd h (by decide)

/-- C3: under the last-author-only policy, for non-empty normalized
author lists, classification succeeds exactly when the literal last
element of the original list occurs in the citing list. -/
theorem last_author_only_iff_last_mem (orig citing : List String)
    (h1 : orig ≠ []) (h2 : citing ≠ []) :
    check_self_citation orig citing .LastAuthorOnly = true ↔
      orig.getLast h1 ∈ citing := by
  rw [check_self_citation, if_neg (by simp [not_or, h1, h2])]
  rw [List.getLast?_eq_getLast orig h1]
  simp

/-- C3 (witness): the concrete example is false because the last element
"doe,a" is not among the citing authors. -/
theorem last_author_only_iff_last_mem_witness :
    check_self_citation ["smith,j", "doe,a"] ["smith,j"] .LastAuthorOnly = false := by
  rw [Bool.eq_false_iff]
  intro hc
  have h := (last_author_only_iff_last_mem ["smith,j", "doe,a"] ["smith,j"]
    (by simp) (by simp)).mp hc
  exact absurd h (by decide)

/-- C4: for every policy, an empty original or citing list yields a
negative verdict. -/
theorem empty_list_never_self_citation (orig citing : List String)
    (p : ClassificationPolicy) (h : orig = [] ∨ citing = []) :
    check_self_citation orig citing p = false := by
  rw [check_self_citation.eq_def, if_pos h]

/-- C4 (witness): the concrete empty-original example. -/
theorem empty_list_never_self_citation_witness :
    check_self_citation [] ["doe,a"] .AnyAuthorOverlap = false :=
  empty_list_never_self_citation [] ["doe,a"] .AnyAuthorOverlap (Or.inl rfl)

/-- C5 (counterexample): tokens are not always period-free nor
whitespace-collapsed: a last name written with initials or doubled
spaces before the comma is kept verbatim. -/
theorem normalized_token_shape_counterexample :
    normalize_author_name "J.R. Ewing, Bobby" = some "j.r. ewing,bobby" ∧
    '.' ∈ ("j.r. ewing,bobby" : String).data ∧
    normalize_author_name "A  B, C" = some "a  b,c" ∧
    ("a  b,c" : String).data = ['a', ' ', ' ', 'b', ',', 'c'] :=
  ⟨by rfl, by decide, by rfl, by rfl⟩

/-- C5 (amended): every token the normalizer returns has the shape
lastname ++ "," ++ firstmiddle with a non-empty lastname; the entire
token contains no uppercase ASCII letter; the firstmiddle part contains
no periods and has its whitespace collapsed to single spaces.  (The
lastname part may retain periods and uncollapsed internal whitespace.) -/
theorem normalized_token_shape (s t : String)
    (h : normalize_author_name s = some t) :
    (∀ c ∈ t.data, isUpperA c = false) ∧
    ∃ last fm, t.data = last ++ ',' :: fm ∧ last ≠ [] ∧
      '.' ∉ fm ∧ IsCollapsed fm := by
  rw [normalize_author_name] at h
  rcases Option.map_eq_some'.mp h with ⟨tok, htok, hmk⟩
  have hdata : t.data = tok := by rw [← hmk]
  obtain ⟨last, fm, hsp, hlast, hteq⟩ := normalizeAuthorNameL_eq_some htok
  obtain ⟨hlastc, hfmc, hcol⟩ := splitNamePair_shape hsp
  constructor
  · intro c hc
    rw [hdata, hteq] at hc
    rcases List.mem_append.mp hc with hm | hm
    · rcases trimmedName_chars (hlastc c hm) with ⟨d, _, hdl⟩
      rw [hdl]
      exact toLower_isUpperA d
    · rcases List.mem_cons.mp hm with hm2 | hm2
      · rw [hm2]; decide
      · rcases hfmc c hm2 with h3 | h3
        · rw [h3]; decide
        · rcases trimmedName_chars h3.1 with ⟨d, _, hdl⟩
          rw [hdl]
          exact toLower_isUpperA d
  · refine ⟨last, fm, by rw [hdata, hteq], hlast, ?_, hcol⟩
    intro hdot
    rcases hfmc '.' hdot with h1 | h1
    · simp at h1
    · exact h1.2 rfl

/-- C5 (witness): the shape properties instantiated on the token of
"Smith, J.A.". -/
theorem normalized_token_shape_witness :
    (∀ c ∈ ("smith,ja" : String).data, isUpperA c = false) ∧
    ∃ last fm, ("smith,ja" : String).data = last ++ ',' :: fm ∧ last ≠ [] ∧
      '.' ∉ fm ∧ IsCollapsed fm :=
  normalized_token_shape "Smith, J.A." "smith,ja" (by rfl)

/-- C6: the three concrete normalizations from the spec, exactly as the
code computes them. -/
theorem normalize_concrete_examples :
    normalize_author_name "Smith, J.A." = some "smith,ja" ∧
    normalize_author_name "John Smith" = some "smith,john" ∧
    normalize_author_name "Smith" = some "smith," :=
  ⟨by rfl, by rfl, by rfl⟩

/-- C7 (counterexample): a segment consisting only of punctuation is not
always dropped: "!" survives trimming (only asterisks, periods, digits
and spaces are stripped) and normalizes to "!,". -/
theorem punctuation_only_not_dropped :
    (∀ c ∈ ("!" : String).data, pyIsPunct c = true) ∧
    normalize_author_name "!" = some "!," :=
  ⟨by decide, by rfl⟩

/-- C7 (amended): if after lowercasing, stripping and trimming the
trailing run of asterisks, periods, digits and whitespace the remaining
string is empty or equals "...", the normalizer returns absent; in
particular "..." and "*" map to absent, as does any segment consisting
only of asterisks, periods, digits and spaces. -/
theorem trimmed_empty_or_ellipsis_absent :
    (∀ s : String, trimmedName s.data = [] ∨ trimmedName s.data = ellipsisTok →
      normalize_author_name s = none) ∧
    normalize_author_name "..." = none ∧
    normalize_author_name "*" = none ∧
    (∀ s : String, (∀ c ∈ s.data, c ∈ junkChars) →
      normalize_author_name s = none) := by
  refine ⟨?_, by rfl, by rfl, ?_⟩
  · intro s h
    rw [normalize_author_name, normalizeAuthorNameL, if_pos h]
    rfl
  · intro s h
    have htrim : trimmedName s.data = [] := by
      rw [trimmedName, rstripJunk]
      refine rstripP_eq_nil ?_
      intro c hc
      have hmem := mem_of_mem_stripWs hc
      rcases List.mem_map.mp hmem with ⟨d, hd, hdc⟩
      have hdj := h d hd
      have : c ∈ junkChars := by
        rw [← hdc, junk_toLower d hdj]
        exact hdj
      exact decide_eq_true this
    rw [normalize_author_name, normalizeAuthorNameL, if_pos (Or.inl htrim)]
    rfl

/-- C7 (witness): a digits-only segment trims to empty and a
junk-characters-only segment is dropped, both through the theorem. -/
theorem trimmed_empty_or_ellipsis_absent_witness :
    normalize_author_name "123" = none ∧ normalize_author_name "*." = none :=
  ⟨trimmed_empty_or_ellipsis_absent.1 "123" (Or.inl (by rfl)),
   trimmed_empty_or_ellipsis_absent.2.2.2 "*." (by decide)⟩

/-- The accumulation loop is the filterMap of the normalizer over the
segments: the loop's extra truthiness test on the token never fires
because tokens are never empty. -/
theorem filterNorm_eq_filterMap (ps : List (List Char)) :
    filterNorm ps
      = ps.filterMap (fun p => if p = [] then none else normalizeAuthorNameL p) := by
  induction ps with
  | nil => rfl
  | cons p rest ih =>
    rw [filterNorm, List.filterMap_cons]
    by_cases hp : p = []
    · rw [if_pos hp, if_pos hp, ih]
    · rw [if_neg hp, if_neg hp]
      cases hn : normalizeAuthorNameL p with
      | none => exact ih
      | some n =>
        have hne : n ≠ [] := normalizeAuthorNameL_ne_nil hn
        simp [hne, ih]

/-- C8: the implementation of `get_normalized_authors` coincides with the
specification-side order-preserving filterMap over the segments, and maps
the "N/A" sentinel and the empty string to the empty list. -/
theorem get_normalized_authors_refines_spec :
    (∀ s : String, get_normalized_authors s = get_normalized_authors_spec s) ∧
    get_normalized_authors "N/A" = [] ∧
    get_normalized_authors "" = [] := by
  refine ⟨?_, by rfl, by rfl⟩
  intro s
  rw [get_normalized_authors, get_normalized_authors_spec,
    getNormalizedAuthorsL, getNormalizedAuthorsSpecL]
  by_cases h : s.data = [] ∨ s.data = naTok
  · rw [if_pos h, if_pos h]
  · rw [if_neg h, if_neg h]
    show (filterNorm (authorSegments s.data)).map String.mk = _
    rw [filterNorm_eq_filterMap]

/-- C10: a positive verdict under the last-author-only policy implies a
positive verdict under the any-overlap policy on the same lists. -/
theorem last_author_only_implies_any_overlap (orig citing : List String)
    (h : check_self_citation orig citing .LastAuthorOnly = true) :
    check_self_citation orig citing .AnyAuthorOverlap = true := by
  by_cases he : orig = [] ∨ citing = []
  · rw [check_self_citation, if_pos he] at h
    exact absurd h (by simp)
  · rw [check_self_citation, if_neg he] at h
    rw [check_self_citation, if_neg he]
    push_neg at he
    obtain ⟨h1, h2⟩ := he
    rw [List.getLast?_eq_getLast orig h1] at h
    simp only [decide_eq_true_eq] at h
    rw [List.any_eq_true]
    exact ⟨orig.getLast h1, List.getLast_mem h1, by simpa using h⟩

/-- C10 (witness): instantiated on a singleton list where the
last-author policy fires. -/
theorem last_author_only_implies_any_overlap_witness :
    check_self_citation ["doe,a"] ["doe,a"] .AnyAuthorOverlap = true :=
  last_author_only_implies_any_overlap ["doe,a"] ["doe,a"] (by decide)

/-! ### Totality: the checked variants never signal an exception -/

theorem tokensBranchChecked_eq (g : List (List Char) → List Char)
    (toks : List (List Char)) :
    tokensBranchChecked g toks = some (tokensBranch g toks) := by
  cases toks with
  | nil => rfl
  | cons t ts =>
    cases ts with
    | nil => rfl
    | cons u us =>
      rw [tokensBranchChecked, tokensBranch]
      have hne : t :: u :: us ≠ [] := by simp
      have hli : lastAndInit (t :: u :: us)
          = some ((t :: u :: us).getLast hne, (t :: u :: us).dropLast) := by
        conv_lhs => rw [← List.dropLast_append_getLast hne]
        exact lastAndInit_concat _ _
      have hdl : (t :: u :: us).dropLast ≠ [] := by
        intro hcon
        have := congrArg List.length hcon
        simp [List.length_dropLast] at this
      rw [hli]
      simp only []
      rw [List.getLast?_eq_getLast _ hne]
      rw [if_neg (by simp), if_neg (by simp [List.length_cons])]
      simp only [Option.map_some']
      rw [if_neg hdl]

theorem splitNamePairChecked_eq (name : List Char) :
    splitNamePairChecked name = some (splitNamePair name) := by
  rw [splitNamePairChecked, splitNamePair]
  cases hsf : splitFirst ',' name with
  | none => exact tokensBranchChecked_eq _ _
  | some p =>
    obtain ⟨co0, co1⟩ := p
    simp only [ne_eq]
    by_cases htl : stripWs co0 = []
    · rw [if_neg (not_not_intro htl), if_neg (not_not_intro htl)]
      exact tokensBranchChecked_eq _ _
    · rw [if_pos htl, if_pos htl]

theorem finishTokenChecked_eq (sp : Option (List Char × List Char)) :
    finishTokenChecked (some sp) = some (finishToken sp) := by
  cases sp with
  | none => rfl
  | some p =>
    obtain ⟨last, fm⟩ := p
    rw [finishTokenChecked, finishToken]
    by_cases h : last = []
    · rw [if_pos h, if_pos h]
    · rw [if_neg h, if_neg h]

theorem normalizeAuthorNameChecked_eq (cs : List Char) :
    normalizeAuthorNameChecked cs = some (normalizeAuthorNameL cs) := by
  simp only [normalizeAuthorNameChecked, normalizeAuthorNameL]
  by_cases hg : trimmedName cs = [] ∨ trimmedName cs = ellipsisTok
  · rw [if_pos hg, if_pos hg]
  · rw [if_neg hg, if_neg hg, splitNamePairChecked_eq]
    exact finishTokenChecked_eq _

theorem filterNormChecked_eq (ps : List (List Char)) :
    filterNormChecked ps = some (filterNorm ps) := by
  induction ps with
  | nil => rfl
  | cons p rest ih =>
    rw [filterNormChecked, filterNorm]
    by_cases hp : p = []
    · rw [if_pos hp, if_pos hp]
      exact ih
    · rw [if_neg hp, if_neg hp, normalizeAuthorNameChecked_eq]
      cases hn : normalizeAuthorNameL p with
      | none => exact ih
      | some n =>
        simp only []
        by_cases hne : n = []
        · rw [if_pos hne, if_pos hne]
          exact ih
        · rw [if_neg hne, if_neg hne, ih]
          rfl

theorem getNormalizedAuthorsChecked_eq (cs : List Char) :
    getNormalizedAuthorsChecked cs = some (getNormalizedAuthorsL cs) := by
  simp only [getNormalizedAuthorsChecked, getNormalizedAuthorsL]
  by_cases hg : cs = [] ∨ cs = naTok
  · rw [if_pos hg, if_pos hg]
  · rw [if_neg hg, if_neg hg]
    exact filterNormChecked_eq _

theorem check_self_citation_checked_eq (orig citing : List String)
    (p : ClassificationPolicy) :
    check_self_citation_checked orig citing p
      = some (check_self_citation orig citing p) := by
  rw [check_self_citation_checked.eq_def, check_self_citation.eq_def]
  by_cases h : orig = [] ∨ citing = []
  · rw [if_pos h, if_pos h]
  · rw [if_neg h, if_neg h]
    cases p with
    | AnyAuthorOverlap => rfl
    | LastAuthorOnly =>
      push_neg at h
      rw [List.getLast?_eq_getLast _ h.1]
      rfl

/-- C9: the normalizer, the segmentation function and the classifier are
total: on every input the checked variants (which make each Python list
indexing an explicit `Option` and propagate a failure as `none`) return
`some` of the plain functions' results, so no input reaches a raising
operation. -/
theorem core_functions_never_raise :
    (∀ s : String,
      normalizeAuthorNameChecked s.data = some (normalizeAuthorNameL s.data)) ∧
    (∀ s : String,
      getNormalizedAuthorsChecked s.data = some (getNormalizedAuthorsL s.data)) ∧
    (∀ (orig citing : List String) (p : ClassificationPolicy),
      check_self_citation_checked orig citing p
        = some (check_self_citation orig citing p)) :=
  ⟨fun s => normalizeAuthorNameChecked_eq s.data,
   fun s => getNormalizedAuthorsChecked_eq s.data,
   check_self_citation_checked_eq⟩

end SelfCite
